import Mathlib

/-
Verification of the audit-ledger core of GovProcureChain (src/blockchain.py).

The Python module is shallowly embedded as follows.

- Python values that may appear in an event payload are modeled by the
  inductive type PyVal: null, booleans, integers, strings, lists, and
  string-keyed insertion-ordered mappings.  A constructor PyVal.obj stands
  for any Python object that the json module cannot serialize.
- canonical_json models json.dumps(obj, sort_keys=True, separators=(",", ":"),
  ensure_ascii=False).  It is factored as a recursive key-sorting pass
  (jsonReady, which also rejects unserializable objects, modeling the
  TypeError raised by json.dumps) followed by a plain serializer.
  The result is Option String; none models the raised TypeError.
- sha256_hex is a complete executable SHA-256 over the UTF-8 bytes of the
  input string, as in hashlib.sha256(data).hexdigest().
- Wall-clock readings (utc_now_iso) are modeled by explicit String
  parameters named now; the code under verification treats timestamps as
  opaque strings.
- Mutation of self.chain in Python is modeled by state passing: add_block
  returns the new Blockchain.  In the source, the only mutation of
  self.chain happens on the line after the hash computation, so a raised
  TypeError (modeled by the none result) leaves the chain unchanged; the
  none result of the embedded add_block therefore corresponds to an abort
  with the ledger untouched.
-/

namespace GovProcureChain

set_option maxRecDepth 100000

/-! ## Definitions: the embedded program, specification predicates, and concrete instances -/

/-- Byte-wise (code-point) lexicographic comparison of character lists,
modeling the comparison CPython uses on str values; used by sorted(). -/
def charListLt : List Char → List Char → Bool
  | [], [] => false
  | [], _ :: _ => true
  | _ :: _, [] => false
  | a :: as, b :: bs =>
    if a.toNat < b.toNat then true
    else if b.toNat < a.toNat then false
    else charListLt as bs

/-- Python string comparison s1 < s2 (lexicographic by code point). -/
def pyStrLt (a b : String) : Bool := charListLt a.data b.data

/-- A Python value as found in event payloads: the JSON-representable
constructors plus PyVal.obj, which stands for any object json.dumps
cannot serialize. -/
inductive PyVal : Type where
  | null : PyVal
  | bool (b : Bool) : PyVal
  | int (n : Int) : PyVal
  | str (s : String) : PyVal
  | list (xs : List PyVal) : PyVal
  | dict (kvs : List (String × PyVal)) : PyVal
  | obj (tag : String) : PyVal

/-- Stable insertion of a key-value pair into a key-sorted list, using the
Python comparison on keys.  Together with sortKeys this models the
sorted() call that json.dumps performs on mapping items when
sort_keys=True is given (dict keys are unique, so only keys decide). -/
def insertByKey (p : String × PyVal) : List (String × PyVal) → List (String × PyVal)
  | [] => [p]
  | q :: qs => if pyStrLt q.1 p.1 then q :: insertByKey p qs else p :: q :: qs

/-- Stable sort of mapping items by key (insertion sort). -/
def sortKeys : List (String × PyVal) → List (String × PyVal)
  | [] => []
  | p :: ps => insertByKey p (sortKeys ps)

mutual
/-- Recursive key-sorting pass of the canonical encoder: sorts every
mapping by key and fails (none) when the value contains an object the
json module cannot represent, modeling the TypeError of json.dumps. -/
def jsonReady : PyVal → Option PyVal
  | .null => some .null
  | .bool b => some (.bool b)
  | .int n => some (.int n)
  | .str s => some (.str s)
  | .list xs => Option.map PyVal.list (jsonReadyList xs)
  | .dict kvs => Option.map (fun l => PyVal.dict (sortKeys l)) (jsonReadyKVs kvs)
  | .obj _ => none

/-- jsonReady mapped over a list of values. -/
def jsonReadyList : List PyVal → Option (List PyVal)
  | [] => some []
  | x :: xs => do
    let x' ← jsonReady x
    let xs' ← jsonReadyList xs
    some (x' :: xs')

/-- jsonReady mapped over the values of mapping items. -/
def jsonReadyKVs : List (String × PyVal) → Option (List (String × PyVal))
  | [] => some []
  | (k, v) :: xs => do
    let v' ← jsonReady v
    let xs' ← jsonReadyKVs xs
    some ((k, v') :: xs')
end

/-- Hex digit characters, lowercase, as produced by hexdigest() and by the
escape sequences of json.dumps. -/
def hexDigit (n : Nat) : Char := "0123456789abcdef".data.getD n '0'

/-- JSON escaping of one character as performed by json.dumps with
ensure_ascii=False: quote, backslash and ASCII control characters are
escaped, everything else is emitted verbatim. -/
def escChar (c : Char) : String :=
  if c = '"' then "\\\""
  else if c = '\\' then "\\\\"
  else if c = '\n' then "\\n"
  else if c = '\r' then "\\r"
  else if c = '\t' then "\\t"
  else if c.toNat = 8 then "\\b"
  else if c.toNat = 12 then "\\f"
  else if c.toNat < 32 then "\\u00" ++ String.mk [hexDigit ((c.toNat >>> 4) &&& 15), hexDigit (c.toNat &&& 15)]
  else String.singleton c

/-- JSON string literal for s, in the style of json.dumps with
ensure_ascii=False. -/
def quoteStr (s : String) : String := "\"" ++ String.join (s.data.map escChar) ++ "\""

mutual
/-- Plain JSON serializer with separators (",", ":") and no whitespace,
applied to the output of jsonReady (mappings already key-sorted, no
unserializable object present; the obj case below is unreachable from
canonical_json and its value is irrelevant). -/
def serialize : PyVal → String
  | .null => "null"
  | .bool true => "true"
  | .bool false => "false"
  | .int n => n.repr
  | .str s => quoteStr s
  | .list xs => "[" ++ serializeList xs ++ "]"
  | .dict kvs => "\x7b" ++ serializeKVs kvs ++ "\x7d"
  | .obj _ => ""

/-- Comma-separated serialization of a sequence of values. -/
def serializeList : List PyVal → String
  | [] => ""
  | [x] => serialize x
  | x :: y :: xs => serialize x ++ "," ++ serializeList (y :: xs)

/-- Comma-separated serialization of mapping items as key:value. -/
def serializeKVs : List (String × PyVal) → String
  | [] => ""
  | [(k, v)] => quoteStr k ++ ":" ++ serialize v
  | (k, v) :: q :: xs => quoteStr k ++ ":" ++ serialize v ++ "," ++ serializeKVs (q :: xs)
end

/-- Model of canonical_json from src/blockchain.py: stable JSON encoding
for hashing, json.dumps(obj, sort_keys=True, separators=(",", ":"),
ensure_ascii=False).  The none result models the TypeError json.dumps
raises on a value it cannot represent. -/
def canonical_json (obj : PyVal) : Option String :=
  Option.map serialize (jsonReady obj)

/-- Reduction of a natural number to a 32-bit word. -/
def w32 (n : Nat) : Nat := n % 4294967296

/-- 32-bit right rotation. -/
def rotr32 (x n : Nat) : Nat := w32 ((x >>> n) ||| (x <<< (32 - n)))

/-- The sixty-four SHA-256 round constants, written in decimal. -/
def shaK : List Nat :=
  [1116352408, 1899447441, 3049323471, 3921009573, 961987163, 1508970993,
   2453635748, 2870763221, 3624381080, 310598401, 607225278, 1426881987,
   1925078388, 2162078206, 2614888103, 3248222580, 3835390401, 4022224774,
   264347078, 604807628, 770255983, 1249150122, 1555081692, 1996064986,
   2554220882, 2821834349, 2952996808, 3210313671, 3336571891, 3584528711,
   113926993, 338241895, 666307205, 773529912, 1294757372, 1396182291,
   1695183700, 1986661051, 2177026350, 2456956037, 2730485921, 2820302411,
   3259730800, 3345764771, 3516065817, 3600352804, 4094571909, 275423344,
   430227734, 506948616, 659060556, 883997877, 958139571, 1322822218,
   1537002063, 1747873779, 1955562222, 2024104815, 2227730452, 2361852424,
   2428436474, 2756734187, 3204031479, 3329325298]

/-- The eight words of the SHA-256 initial state, written in decimal. -/
def shaH0 : List Nat :=
  [1779033703, 3144134277, 1013904242, 2773480762,
   1359893119, 2600822924, 528734635, 1541459225]

/-- Big-endian packing of bytes into 32-bit words. -/
def bytesToWords : List Nat → List Nat
  | b1 :: b2 :: b3 :: b4 :: rest => (((b1 * 256 + b2) * 256 + b3) * 256 + b4) :: bytesToWords rest
  | _ => []

/-- Next word of the SHA-256 message schedule, from the previous words. -/
def scheduleWord (w : List Nat) : Nat :=
  let i := w.length
  let x15 := w.getD (i - 15) 0
  let x2 := w.getD (i - 2) 0
  let s0 := rotr32 x15 7 ^^^ rotr32 x15 18 ^^^ (x15 >>> 3)
  let s1 := rotr32 x2 17 ^^^ rotr32 x2 19 ^^^ (x2 >>> 10)
  w32 (w.getD (i - 16) 0 + s0 + w.getD (i - 7) 0 + s1)

/-- Extension of the 16-word schedule by the given number of words. -/
def extendSchedule : Nat → List Nat → List Nat
  | 0, w => w
  | n + 1, w => extendSchedule n (w ++ [scheduleWord w])

/-- The SHA-256 compression rounds over paired round constants and
schedule words, acting on the eight working registers. -/
def shaRounds : List (Nat × Nat) → List Nat → List Nat
  | (k, wi) :: rest, [a, b, c, d, e, f, g, h] =>
    let s1 := rotr32 e 6 ^^^ rotr32 e 11 ^^^ rotr32 e 25
    let ch := (e &&& f) ^^^ ((4294967295 ^^^ e) &&& g)
    let t1 := w32 (h + s1 + ch + k + wi)
    let s0 := rotr32 a 2 ^^^ rotr32 a 13 ^^^ rotr32 a 22
    let mj := (a &&& b) ^^^ (a &&& c) ^^^ (b &&& c)
    let t2 := w32 (s0 + mj)
    shaRounds rest [w32 (t1 + t2), a, b, c, w32 (d + t1), e, f, g]
  | _, regs => regs

/-- One SHA-256 chunk compression. -/
def shaCompress (h : List Nat) (chunk : List Nat) : List Nat :=
  let w := extendSchedule 48 (bytesToWords chunk)
  let regs := shaRounds (shaK.zip w) h
  (h.zip regs).map (fun p => w32 (p.1 + p.2))

/-- Big-endian byte representation of n in the given number of bytes. -/
def beBytes : Nat → Nat → List Nat
  | 0, _ => []
  | k + 1, n => beBytes k (n >>> 8) ++ [n &&& 255]

/-- SHA-256 message padding: a 0x80 byte, zeros to 56 mod 64, then the
bit length in 8 big-endian bytes. -/
def padBytes (msg : List Nat) : List Nat :=
  let r := (msg.length + 1) % 64
  let zeros := if r ≤ 56 then 56 - r else 120 - r
  msg ++ 128 :: (List.replicate zeros 0 ++ beBytes 8 (msg.length * 8))

/-- Folding the compression over consecutive 64-byte chunks.  The first
argument is fuel bounding the number of chunks; it is instantiated with
the padded length, which always suffices. -/
def processChunks : Nat → List Nat → List Nat → List Nat
  | 0, h, _ => h
  | _ + 1, h, [] => h
  | fuel + 1, h, bytes => processChunks fuel (shaCompress h (bytes.take 64)) (bytes.drop 64)

/-- SHA-256 of a byte sequence, as eight 32-bit words. -/
def sha256Words (msg : List Nat) : List Nat :=
  let padded := padBytes msg
  processChunks padded.length shaH0 padded

/-- UTF-8 encoding of one character. -/
def utf8Char (c : Char) : List Nat :=
  let n := c.toNat
  if n < 128 then [n]
  else if n < 2048 then [192 ||| (n >>> 6), 128 ||| (n &&& 63)]
  else if n < 65536 then [224 ||| (n >>> 12), 128 ||| ((n >>> 6) &&& 63), 128 ||| (n &&& 63)]
  else [240 ||| (n >>> 18), 128 ||| ((n >>> 12) &&& 63), 128 ||| ((n >>> 6) &&& 63), 128 ||| (n &&& 63)]

/-- UTF-8 bytes of a string, modeling str.encode("utf-8"). -/
def utf8Bytes (s : String) : List Nat :=
  (s.data.map utf8Char).flatten

/-- Lowercase hexadecimal rendering of one 32-bit word. -/
def wordHex (n : Nat) : String :=
  String.mk [hexDigit ((n >>> 28) &&& 15), hexDigit ((n >>> 24) &&& 15), hexDigit ((n >>> 20) &&& 15),
             hexDigit ((n >>> 16) &&& 15), hexDigit ((n >>> 12) &&& 15), hexDigit ((n >>> 8) &&& 15),
             hexDigit ((n >>> 4) &&& 15), hexDigit (n &&& 15)]

/-- Model of sha256_hex from src/blockchain.py applied to a string s:
hashlib.sha256(s.encode("utf-8")).hexdigest().  The UTF-8 encoding of
the argument, done by the caller in the source, is folded in here. -/
def sha256_hex (s : String) : String :=
  String.join ((sha256Words (utf8Bytes s)).map wordHex)

/-- Model of the Event dataclass of src/blockchain.py.  The payload is an
insertion-ordered mapping from strings to Python values. -/
structure Event where
  event_type : String
  actor_role : String
  actor_id : String
  payload : List (String × PyVal)
  timestamp_utc : String := ""

/-- Model of Event.to_dict: asdict(self) produces the field mapping in
declaration order, and an empty timestamp_utc is replaced by the current
time, modeled by the parameter now. -/
def Event.to_dict (e : Event) (now : String) : PyVal :=
  .dict [("event_type", .str e.event_type),
         ("actor_role", .str e.actor_role),
         ("actor_id", .str e.actor_id),
         ("payload", .dict e.payload),
         ("timestamp_utc", .str (if e.timestamp_utc = "" then now else e.timestamp_utc))]

/-- Model of the Block dataclass of src/blockchain.py.  The events field
holds the event dictionaries (the source stores plain dicts produced by
Event.to_dict). -/
structure Block where
  index : Nat
  timestamp_utc : String
  previous_hash : String
  events : List PyVal
  nonce : Nat := 0
  hash : String := ""

/-- The mapping of block contents hashed by Block.compute_hash: every
field except the hash itself, in source order. -/
def Block.block_obj (b : Block) : PyVal :=
  .dict [("index", .int b.index),
         ("timestamp_utc", .str b.timestamp_utc),
         ("previous_hash", .str b.previous_hash),
         ("events", .list b.events),
         ("nonce", .int b.nonce)]

/-- Model of Block.compute_hash: the block contents except the hash field
itself are put into a mapping in source order, canonically encoded, and
hashed. -/
def Block.compute_hash (b : Block) : Option String :=
  Option.map sha256_hex (canonical_json b.block_obj)

/-- Model of the Blockchain class state: the list self.chain. -/
structure Blockchain where
  chain : List Block

/-- The synthetic genesis event dictionary created by
Blockchain._create_genesis_block, with the wall-clock reading for its
timestamp passed as nowEvent. -/
def genesisEventDict (nowEvent : String) : PyVal :=
  .dict [("event_type", .str "GENESIS"),
         ("actor_role", .str "SYSTEM"),
         ("actor_id", .str "GOVPROCURECHAIN"),
         ("payload", .dict [("message", .str "Genesis block - chain initialized")]),
         ("timestamp_utc", .str nowEvent)]

/-- Model of Blockchain._create_genesis_block, first source line: the
genesis block at index 0 with previous_hash "0" * 64 and one synthetic
GENESIS event, hash not yet assigned.  The two utc_now_iso() readings in
the source are the parameters nowBlock and nowEvent. -/
def genesis_base (nowBlock nowEvent : String) : Block :=
  { index := 0,
    timestamp_utc := nowBlock,
    previous_hash := String.mk (List.replicate 64 '0'),
    events := [genesisEventDict nowEvent],
    nonce := 0,
    hash := "" }

/-- Model of Blockchain._create_genesis_block, second source line: the
assignment genesis.hash = genesis.compute_hash().  The none branch is
unreachable: the genesis contents are always representable, so
compute_hash never returns none here (proved below); Python would raise
there, and no behavior depends on the value chosen. -/
def Blockchain.create_genesis_block (nowBlock nowEvent : String) : Block :=
  match (genesis_base nowBlock nowEvent).compute_hash with
  | some h => { genesis_base nowBlock nowEvent with hash := h }
  | none => genesis_base nowBlock nowEvent

/-- Model of Blockchain.__init__: a fresh ledger holding exactly the
genesis block. -/
def Blockchain.init (nowBlock nowEvent : String) : Blockchain :=
  ⟨[Blockchain.create_genesis_block nowBlock nowEvent]⟩

/-- Model of Blockchain.add_block, with the option monad modeling raised
exceptions.  The clock readings during the call are modeled by now.  The
none result models an exception escaping the call: either self.chain was
empty (IndexError on chain[-1], unreachable from a constructed ledger)
or a payload was unserializable (TypeError from json.dumps inside
compute_hash).  In the source both raises happen before the single
self.chain.append mutation, so none corresponds to an abort that leaves
the ledger unchanged.  The source locals event_dicts and block are
inlined: the block literal with hash h is the source Block(...) after
the assignment block.hash = block.compute_hash(). -/
def Blockchain.add_block (bc : Blockchain) (events : List Event) (now : String) :
    Option (Blockchain × Block) :=
  bc.chain.getLast?.bind fun prev =>
    (Block.compute_hash { index := bc.chain.length, timestamp_utc := now, previous_hash := prev.hash, events := events.map (fun e => e.to_dict now), nonce := 0, hash := "" }).bind fun h =>
      some ({ chain := bc.chain ++ [{ index := bc.chain.length, timestamp_utc := now, previous_hash := prev.hash, events := events.map (fun e => e.to_dict now), nonce := 0, hash := h }] },
        { index := bc.chain.length, timestamp_utc := now, previous_hash := prev.hash, events := events.map (fun e => e.to_dict now), nonce := 0, hash := h })

/-- The loop body of Blockchain.is_valid, walking the chain with the
previous block at hand: the link check, then the recomputation check,
in source order, short-circuiting on the first failure.  The none result
models a TypeError escaping from compute_hash on a tampered block. -/
def checkFrom : Block → List Block → Option Bool
  | _, [] => some true
  | prev, cur :: rest =>
    if cur.previous_hash ≠ prev.hash then some false
    else
      cur.compute_hash.bind fun expected =>
        if cur.hash ≠ expected then some false else checkFrom cur rest

/-- Model of Blockchain.is_valid: the loop over indices 1 to the tip. -/
def Blockchain.is_valid (bc : Blockchain) : Option Bool :=
  match bc.chain with
  | [] => some true
  | b :: rest => checkFrom b rest

/-- The ledger states reachable by the public interface of the source:
genesis initialization followed by any sequence of successful appends. -/
inductive Reachable : Blockchain → Prop where
  | init : ∀ nowBlock nowEvent, Reachable (Blockchain.init nowBlock nowEvent)
  | step : ∀ bc events now bc' blk, Reachable bc →
      bc.add_block events now = some (bc', blk) → Reachable bc'

/-- The two per-block validation checks of is_valid, stated structurally
along the chain: each block links to its predecessor and stores its own
recomputed fingerprint. -/
def okFrom : Block → List Block → Prop
  | _, [] => True
  | prev, c :: cs => c.previous_hash = prev.hash ∧ c.compute_hash = some c.hash ∧ okFrom c cs

/-- okFrom strengthened with sequential indices. -/
def linkedFrom : Block → List Block → Prop
  | _, [] => True
  | prev, c :: cs => c.index = prev.index + 1 ∧ c.previous_hash = prev.hash ∧
      c.compute_hash = some c.hash ∧ linkedFrom c cs

/-- The invariant of reachable chains: non-empty, genesis at index 0 with
a correct stored fingerprint, and every later block linked with a
sequential index and a correct stored fingerprint. -/
def goodChain : List Block → Prop
  | [] => False
  | b :: rest => b.index = 0 ∧ b.compute_hash = some b.hash ∧ linkedFrom b rest

/-- The tip of a chain written as a head block plus the rest. -/
def lastBlock (b : Block) (rest : List Block) : Block := rest.getLast?.getD b

/-- The two checks of is_valid exactly as the spec words them: for every
index i from 1 up, the stored previous fingerprint of block i equals the
stored fingerprint of block i-1, and the independently recomputed
fingerprint of block i equals its stored fingerprint. -/
def pairChecks (c : List Block) : Prop :=
  ∀ (i : Nat) (cur prevb : Block), 1 ≤ i → c.get? i = some cur → c.get? (i - 1) = some prevb →
    cur.previous_hash = prevb.hash ∧ cur.compute_hash = some cur.hash

mutual
/-- Whether a value contains, anywhere inside, an object the json module
cannot serialize (the PyVal.obj constructor). -/
def hasObj : PyVal → Bool
  | .null => false
  | .bool _ => false
  | .int _ => false
  | .str _ => false
  | .list xs => hasObjList xs
  | .dict kvs => hasObjKVs kvs
  | .obj _ => true

/-- hasObj over a list of values. -/
def hasObjList : List PyVal → Bool
  | [] => false
  | x :: xs => hasObj x || hasObjList xs

/-- hasObj over the values of mapping items. -/
def hasObjKVs : List (String × PyVal) → Bool
  | [] => false
  | (_, v) :: xs => hasObj v || hasObjKVs xs
end

/-- The non-strict key order maintained by the insertion sort. -/
def keyLe (p q : String × PyVal) : Prop := pyStrLt q.1 p.1 = false

/-- The strict key order; on mapping item lists with distinct keys the
sorted order is unique with respect to it. -/
def keyLt (p q : String × PyVal) : Prop := pyStrLt p.1 q.1 = true

/-- Two payload values that are identical or are mappings holding the
same key-value pairs inserted in different orders (with distinct keys,
as in a Python dict). -/
def ValPerm (v v' : PyVal) : Prop :=
  v = v' ∨ ∃ p p', (p.map Prod.fst).Nodup ∧ List.Perm p p' ∧ v = .dict p ∧ v' = .dict p'

/-- Two event dictionaries that agree on keys and whose values agree up
to payload-mapping reordering. -/
def EventReorder (d d' : PyVal) : Prop :=
  d = d' ∨ ∃ kvs kvs', d = .dict kvs ∧ d' = .dict kvs' ∧
    List.Forall₂ (fun kv kv' => kv.1 = kv'.1 ∧ ValPerm kv.2 kv'.2) kvs kvs'

/-- A two-entry payload and the same payload with its entries swapped. -/
def wPayload : List (String × PyVal) := [("x", PyVal.int 1), ("y", PyVal.int 2)]

/-- The swapped insertion order of wPayload. -/
def wPayloadSwapped : List (String × PyVal) := [("y", PyVal.int 2), ("x", PyVal.int 1)]

/-- An event dictionary embedding a given payload mapping. -/
def wDictEv (p : List (String × PyVal)) : PyVal :=
  PyVal.dict [("event_type", PyVal.str "E"), ("payload", PyVal.dict p)]

/-- An event whose payload holds an unserializable object. -/
def wBadEvent : Event :=
  { event_type := "E", actor_role := "R", actor_id := "I",
    payload := [("blob", PyVal.obj "set")], timestamp_utc := "T" }

/-- A concrete procurement event. -/
def wEvent : Event :=
  { event_type := "SOLICITATION_PUBLISHED", actor_role := "CONTRACTING_OFFICER",
    actor_id := "CO_001", payload := [("solicitation_id", PyVal.str "SOL-1")],
    timestamp_utc := "E" }

/-- The result of appending wEvent to a fresh ledger. -/
def wStep : Option (Blockchain × Block) := (Blockchain.init "A" "B").add_block [wEvent] "C"

/-- A placeholder block used only as a getD default. -/
def wDefaultBlock : Block := ⟨0, "", "", [], 0, ""⟩

/-- The two-block ledger produced by wStep. -/
def wBC1 : Blockchain := (wStep.map Prod.fst).getD (Blockchain.init "A" "B")

/-- The appended block produced by wStep. -/
def wBlk : Block := (wStep.map Prod.snd).getD wDefaultBlock

/-- wBlk with its recorded event payload overwritten, fingerprint kept. -/
def wTampered : Block := { wBlk with events := [PyVal.dict [("tampered", PyVal.bool true)]] }

/-! ## Theorems -/

/-- The hash field of a block does not influence compute_hash. -/
theorem compute_hash_set_hash (b : Block) (h : String) :
    Block.compute_hash { b with hash := h } = b.compute_hash := rfl

/-- An option that is some equals some of its getD. -/
theorem eq_some_getD {α : Type} (o : Option α) (d : α) (h : o.isSome = true) :
    o = some (o.getD d) := by
  cases o with
  | none => cases h
  | some x => rfl

/-- compute_hash succeeds exactly when the key-sorting pass of the
canonical encoder succeeds on the block contents. -/
theorem compute_hash_isSome (b : Block) :
    (b.compute_hash).isSome = (jsonReady b.block_obj).isSome := by
  unfold Block.compute_hash canonical_json
  cases jsonReady b.block_obj <;> rfl

/-- The key-sorting pass always succeeds on the genesis contents. -/
theorem genesis_base_ready (nowBlock nowEvent : String) :
    (jsonReady (genesis_base nowBlock nowEvent).block_obj).isSome = true := rfl

/-- The stored fingerprint of the genesis block is its recomputed
fingerprint: the genesis contents are always representable. -/
theorem create_genesis_block_hash (nowBlock nowEvent : String) :
    (Blockchain.create_genesis_block nowBlock nowEvent).compute_hash =
      some (Blockchain.create_genesis_block nowBlock nowEvent).hash := by
  have hA : ((genesis_base nowBlock nowEvent).compute_hash).isSome = true := by
    rw [compute_hash_isSome]
    exact genesis_base_ready nowBlock nowEvent
  obtain ⟨e, he⟩ := Option.isSome_iff_exists.mp hA
  unfold Blockchain.create_genesis_block
  rw [he]
  show Block.compute_hash { genesis_base nowBlock nowEvent with hash := e } = some e
  rw [compute_hash_set_hash, he]

theorem linkedFrom_okFrom : ∀ (rest : List Block) (prev : Block),
    linkedFrom prev rest → okFrom prev rest
  | [], _, _ => trivial
  | _ :: cs, _, h => ⟨h.2.1, h.2.2.1, linkedFrom_okFrom cs _ h.2.2.2⟩

theorem getLast?_eq_lastBlock : ∀ (rest : List Block) (b : Block),
    (b :: rest).getLast? = some (lastBlock b rest)
  | [], _ => rfl
  | c :: cs, b => by
    show (b :: c :: cs).getLast? = some ((c :: cs).getLast?.getD b)
    rw [List.getLast?_cons_cons, getLast?_eq_lastBlock cs c]
    rfl

theorem lastBlock_cons (b c : Block) (cs : List Block) :
    lastBlock b (c :: cs) = lastBlock c cs := by
  show (c :: cs).getLast?.getD b = lastBlock c cs
  rw [getLast?_eq_lastBlock cs c]
  rfl

theorem lastBlock_index : ∀ (rest : List Block) (prev : Block),
    linkedFrom prev rest → (lastBlock prev rest).index = prev.index + rest.length
  | [], _, _ => rfl
  | c :: cs, prev, h => by
    rw [lastBlock_cons, lastBlock_index cs c h.2.2.2, h.1]
    simp only [List.length_cons]
    omega

theorem linkedFrom_append : ∀ (rest : List Block) (prev blk : Block),
    linkedFrom prev rest →
    blk.index = (lastBlock prev rest).index + 1 →
    blk.previous_hash = (lastBlock prev rest).hash →
    blk.compute_hash = some blk.hash →
    linkedFrom prev (rest ++ [blk])
  | [], _, blk, _, hi, hp, hc => ⟨hi, hp, hc, trivial⟩
  | c :: cs, prev, blk, h, hi, hp, hc => by
    rw [lastBlock_cons] at hi hp
    exact ⟨h.1, h.2.1, h.2.2.1, linkedFrom_append cs c blk h.2.2.2 hi hp hc⟩

/-- Everything add_block guarantees about a successful append, read off
from the source: the new block references the tip, carries index equal to
the old length, stores its recomputed fingerprint, and is appended at the
end with nothing else changed. -/
theorem add_block_spec {bc bc' : Blockchain} {ev : List Event} {now : String} {blk : Block}
    (h : bc.add_block ev now = some (bc', blk)) :
    ∃ prev, bc.chain.getLast? = some prev ∧
      bc'.chain = bc.chain ++ [blk] ∧
      blk.index = bc.chain.length ∧
      blk.previous_hash = prev.hash ∧
      blk.timestamp_utc = now ∧
      blk.nonce = 0 ∧
      blk.events = ev.map (fun e => e.to_dict now) ∧
      blk.compute_hash = some blk.hash := by
  unfold Blockchain.add_block at h
  cases hl : bc.chain.getLast? with
  | none => rw [hl, Option.none_bind] at h; cases h
  | some prev =>
    rw [hl, Option.some_bind] at h
    cases hc : Block.compute_hash { index := bc.chain.length, timestamp_utc := now, previous_hash := prev.hash, events := ev.map (fun e => e.to_dict now), nonce := 0, hash := "" } with
    | none => rw [hc, Option.none_bind] at h; cases h
    | some hv =>
      rw [hc, Option.some_bind] at h
      simp only [Option.some.injEq, Prod.mk.injEq] at h
      obtain ⟨hbc', hblk⟩ := h
      subst hblk
      refine ⟨prev, rfl, ?_, rfl, rfl, rfl, rfl, rfl, ?_⟩
      · rw [← hbc']
      · exact hc

/-- Reachable ledgers satisfy the chain invariant. -/
theorem reachable_goodChain {bc : Blockchain} (h : Reachable bc) : goodChain bc.chain := by
  induction h with
  | init nowBlock nowEvent =>
    exact ⟨rfl, create_genesis_block_hash nowBlock nowEvent, trivial⟩
  | step bc ev now bc' blk _ hstep ih =>
    obtain ⟨prev, hl, hchain, hidx, hprev, -, -, -, hch⟩ := add_block_spec hstep
    cases hcc : bc.chain with
    | nil => rw [hcc] at ih; cases ih
    | cons b0 rest =>
      rw [hcc] at ih hl hidx hchain
      obtain ⟨h0, hh0, hlink⟩ := ih
      rw [getLast?_eq_lastBlock] at hl
      obtain rfl : prev = lastBlock b0 rest := by cases hl; rfl
      rw [hchain, List.cons_append]
      refine ⟨h0, hh0, linkedFrom_append rest b0 blk hlink ?_ hprev hch⟩
      rw [lastBlock_index rest b0 hlink, h0, hidx]
      simp

theorem reachable_ne_nil {bc : Blockchain} (h : Reachable bc) : bc.chain ≠ [] := by
  intro hnil
  have hg := reachable_goodChain h
  rw [hnil] at hg
  exact hg

/-! ### The validation walk against the structural predicates -/

theorem checkFrom_of_okFrom : ∀ (rest : List Block) (prev : Block),
    okFrom prev rest → checkFrom prev rest = some true
  | [], _, _ => rfl
  | c :: cs, prev, h => by
    obtain ⟨hp, hc, hrest⟩ := h
    unfold checkFrom
    rw [if_neg (by simp [hp]), hc, Option.some_bind, if_neg (by simp),
      checkFrom_of_okFrom cs c hrest]

theorem checkFrom_isSome : ∀ (rest : List Block) (prev : Block),
    (∀ b ∈ rest, (b.compute_hash).isSome = true) →
    (checkFrom prev rest).isSome = true
  | [], _, _ => rfl
  | c :: cs, prev, hrep => by
    unfold checkFrom
    by_cases hp : c.previous_hash = prev.hash
    · rw [if_neg (by simp [hp])]
      obtain ⟨e, he⟩ := Option.isSome_iff_exists.mp (hrep c (by simp))
      rw [he, Option.some_bind]
      by_cases hh : c.hash = e
      · rw [if_neg (by simp [hh])]
        exact checkFrom_isSome cs c (fun b hb => hrep b (by simp [hb]))
      · rw [if_pos hh]; rfl
    · rw [if_pos hp]; rfl

theorem checkFrom_true_iff : ∀ (rest : List Block) (prev : Block),
    (∀ b ∈ rest, (b.compute_hash).isSome = true) →
    (checkFrom prev rest = some true ↔ okFrom prev rest)
  | [], _, _ => by simp [checkFrom, okFrom]
  | c :: cs, prev, hrep => by
    unfold checkFrom okFrom
    by_cases hp : c.previous_hash = prev.hash
    · rw [if_neg (by simp [hp])]
      obtain ⟨e, he⟩ := Option.isSome_iff_exists.mp (hrep c (by simp))
      rw [he, Option.some_bind]
      by_cases hh : c.hash = e
      · rw [if_neg (by simp [hh])]
        rw [checkFrom_true_iff cs c (fun b hb => hrep b (by simp [hb]))]
        subst hh
        simp [hp, he]
      · rw [if_pos hh]
        constructor
        · intro hcon; cases hcon
        · intro hcon
          obtain ⟨-, hch, -⟩ := hcon
          exact absurd (Option.some.inj hch).symm hh
    · rw [if_pos hp]
      constructor
      · intro hcon; cases hcon
      · intro hcon; exact absurd hcon.1 hp

theorem okFrom_iff_pairChecks : ∀ (rest : List Block) (b0 : Block),
    okFrom b0 rest ↔ pairChecks (b0 :: rest)
  | [], b0 => by
    unfold pairChecks
    constructor
    · rintro - i cur prevb h1 h2 h3
      obtain ⟨j, rfl⟩ : ∃ j, i = j + 1 := ⟨i - 1, by omega⟩
      rw [List.get?_cons_succ, List.get?_nil] at h2
      cases h2
    · intro _
      trivial
  | c :: cs, b0 => by
    have ih := okFrom_iff_pairChecks cs c
    unfold pairChecks at ih ⊢
    constructor
    · rintro ⟨hp, hc, hok⟩ i cur prevb h1 h2 h3
      obtain ⟨j, rfl⟩ : ∃ j, i = j + 1 := ⟨i - 1, by omega⟩
      cases j with
      | zero =>
        rw [List.get?_cons_succ, List.get?_cons_zero] at h2
        simp only [Nat.add_sub_cancel, List.get?_cons_zero] at h3
        cases Option.some.inj h2
        cases Option.some.inj h3
        exact ⟨hp, hc⟩
      | succ k =>
        refine ih.mp hok (k + 1) cur prevb (by omega) ?_ ?_
        · rw [← List.get?_cons_succ (a := b0)]
          exact h2
        · have hsh : (b0 :: c :: cs).get? (k + 2 - 1) = (c :: cs).get? (k + 1 - 1) := by
            show (b0 :: c :: cs).get? (k + 1) = (c :: cs).get? k
            exact List.get?_cons_succ
          rw [← hsh]
          exact h3
    · intro hpc
      refine ⟨(hpc 1 c b0 (by omega) rfl rfl).1, (hpc 1 c b0 (by omega) rfl rfl).2, ih.mpr ?_⟩
      intro i cur prevb h1 h2 h3
      obtain ⟨j, rfl⟩ : ∃ j, i = j + 1 := ⟨i - 1, by omega⟩
      refine hpc (j + 2) cur prevb (by omega) ?_ ?_
      · rw [List.get?_cons_succ]
        exact h2
      · show (b0 :: c :: cs).get? (j + 1) = some prevb
        rw [List.get?_cons_succ]
        exact h3

/-! ### Tamper localization: a failed recomputation check surfaces as false -/

theorem okFrom_get_hash : ∀ (rest : List Block) (prev : Block) (j : Nat) (cur : Block),
    okFrom prev rest → rest.get? j = some cur → cur.compute_hash = some cur.hash
  | [], _, j, _, _, h => by rw [List.get?_nil] at h; cases h
  | c :: cs, _, 0, cur, hok, h => by
    rw [List.get?_cons_zero] at h
    cases Option.some.inj h
    exact hok.2.1
  | c :: cs, _, j + 1, cur, hok, h =>
    okFrom_get_hash cs c j cur hok.2.2 (by rwa [List.get?_cons_succ] at h)

theorem checkFrom_set_false : ∀ (rest : List Block) (prev : Block) (j : Nat) (cur b' : Block),
    okFrom prev rest → rest.get? j = some cur →
    (b'.compute_hash).isSome = true →
    b'.hash = cur.hash →
    b'.compute_hash ≠ some cur.hash →
    checkFrom prev (rest.set j b') = some false
  | [], _, j, _, _, _, h, _, _, _ => by rw [List.get?_nil] at h; cases h
  | c :: cs, prev, 0, cur, b', hok, h, hsome, hhash, hdiff => by
    rw [List.get?_cons_zero] at h
    cases Option.some.inj h
    rw [List.set_cons_zero]
    unfold checkFrom
    by_cases hpl : b'.previous_hash = prev.hash
    · rw [if_neg (by simp [hpl])]
      obtain ⟨e, he⟩ := Option.isSome_iff_exists.mp hsome
      rw [he, Option.some_bind, if_pos]
      rw [hhash]
      intro hce
      rw [he, hce] at hdiff
      exact hdiff rfl
    · rw [if_pos hpl]
  | c :: cs, prev, j + 1, cur, b', hok, h, hsome, hhash, hdiff => by
    rw [List.get?_cons_succ] at h
    rw [List.set_cons_succ]
    unfold checkFrom
    rw [if_neg (by simp [hok.1]), hok.2.1, Option.some_bind, if_neg (by simp)]
    exact checkFrom_set_false cs c j cur b' hok.2.2 h hsome hhash hdiff

/-! ### The validation walk reads the head block only through its stored hash -/

theorem checkFrom_head_hash (b0 b0' : Block) (rest : List Block) (h : b0.hash = b0'.hash) :
    checkFrom b0 rest = checkFrom b0' rest := by
  cases rest with
  | nil => rfl
  | cons c cs =>
    unfold checkFrom
    rw [h]

mutual
theorem jsonReady_none_iff : ∀ v : PyVal, jsonReady v = none ↔ hasObj v = true
  | .null => by simp [jsonReady, hasObj]
  | .bool b => by simp [jsonReady, hasObj]
  | .int n => by simp [jsonReady, hasObj]
  | .str s => by simp [jsonReady, hasObj]
  | .list xs => by
    rw [show hasObj (.list xs) = hasObjList xs from rfl]
    rw [show jsonReady (.list xs) = Option.map PyVal.list (jsonReadyList xs) from rfl]
    rw [Option.map_eq_none']
    exact jsonReadyList_none_iff xs
  | .dict kvs => by
    rw [show hasObj (.dict kvs) = hasObjKVs kvs from rfl]
    rw [show jsonReady (.dict kvs) =
      Option.map (fun l => PyVal.dict (sortKeys l)) (jsonReadyKVs kvs) from rfl]
    rw [Option.map_eq_none']
    exact jsonReadyKVs_none_iff kvs
  | .obj t => by simp [jsonReady, hasObj]

theorem jsonReadyList_none_iff : ∀ xs : List PyVal,
    jsonReadyList xs = none ↔ hasObjList xs = true
  | [] => by simp [jsonReadyList, hasObjList]
  | x :: xs => by
    rw [show hasObjList (x :: xs) = (hasObj x || hasObjList xs) from rfl]
    rw [show jsonReadyList (x :: xs) = (jsonReady x).bind
      (fun a => (jsonReadyList xs).bind (fun b => some (a :: b))) from rfl]
    cases hx : jsonReady x with
    | none =>
      simp only [Option.none_bind, Bool.or_eq_true, true_iff]
      exact Or.inl ((jsonReady_none_iff x).mp hx)
    | some a =>
      rw [Option.some_bind]
      cases hxs : jsonReadyList xs with
      | none =>
        simp only [Option.none_bind, Bool.or_eq_true, true_iff]
        exact Or.inr ((jsonReadyList_none_iff xs).mp hxs)
      | some b =>
        rw [Option.some_bind]
        simp only [Bool.or_eq_true, false_iff]
        constructor
        · intro hcon; cases hcon
        · rintro (hc | hc)
          · rw [← jsonReady_none_iff x] at hc
            rw [hc] at hx; cases hx
          · rw [← jsonReadyList_none_iff xs] at hc
            rw [hc] at hxs; cases hxs

theorem jsonReadyKVs_none_iff : ∀ xs : List (String × PyVal),
    jsonReadyKVs xs = none ↔ hasObjKVs xs = true
  | [] => by simp [jsonReadyKVs, hasObjKVs]
  | (k, v) :: xs => by
    rw [show hasObjKVs ((k, v) :: xs) = (hasObj v || hasObjKVs xs) from rfl]
    rw [show jsonReadyKVs ((k, v) :: xs) = (jsonReady v).bind
      (fun a => (jsonReadyKVs xs).bind (fun b => some ((k, a) :: b))) from rfl]
    cases hx : jsonReady v with
    | none =>
      simp only [Option.none_bind, Bool.or_eq_true, true_iff]
      exact Or.inl ((jsonReady_none_iff v).mp hx)
    | some a =>
      rw [Option.some_bind]
      cases hxs : jsonReadyKVs xs with
      | none =>
        simp only [Option.none_bind, Bool.or_eq_true, true_iff]
        exact Or.inr ((jsonReadyKVs_none_iff xs).mp hxs)
      | some b =>
        rw [Option.some_bind]
        simp only [Bool.or_eq_true, false_iff]
        constructor
        · intro hcon; cases hcon
        · rintro (hc | hc)
          · rw [← jsonReady_none_iff v] at hc
            rw [hc] at hx; cases hx
          · rw [← jsonReadyKVs_none_iff xs] at hc
            rw [hc] at hxs; cases hxs
end

/-! ### The Python string order: asymmetry, connectedness, transitivity -/

theorem char_toNat_eq (a b : Char) (h : a.toNat = b.toNat) : a = b := by
  rcases a with ⟨⟨⟨av, hav⟩⟩, pa⟩
  rcases b with ⟨⟨⟨bv, hbv⟩⟩, pb⟩
  simp [Char.toNat, UInt32.toNat] at h
  subst h
  rfl

theorem charListLt_asymm : ∀ a b : List Char, charListLt a b = true → charListLt b a = false
  | [], [], h => by cases h
  | [], _ :: _, _ => rfl
  | _ :: _, [], h => by cases h
  | a :: as, b :: bs, h => by
    unfold charListLt at h ⊢
    by_cases h1 : a.toNat < b.toNat
    · rw [if_neg (by omega), if_pos h1]
    · rw [if_neg h1] at h
      by_cases h2 : b.toNat < a.toNat
      · rw [if_pos h2] at h; cases h
      · rw [if_neg h2] at h
        rw [if_neg h2, if_neg h1]
        exact charListLt_asymm as bs h

theorem charListLt_conn : ∀ a b : List Char,
    charListLt a b = false → charListLt b a = false → a = b
  | [], [], _, _ => rfl
  | [], _ :: _, h, _ => by cases h
  | _ :: _, [], _, h => by cases h
  | a :: as, b :: bs, h1, h2 => by
    unfold charListLt at h1 h2
    by_cases hab : a.toNat < b.toNat
    · rw [if_pos hab] at h1; cases h1
    · by_cases hba : b.toNat < a.toNat
      · rw [if_pos hba] at h2; cases h2
      · rw [if_neg hab, if_neg hba] at h1
        rw [if_neg hba, if_neg hab] at h2
        rw [char_toNat_eq a b (by omega), charListLt_conn as bs h1 h2]

theorem charListLt_trans : ∀ a b c : List Char,
    charListLt a b = true → charListLt b c = true → charListLt a c = true
  | [], _, _ :: _, _, _ => rfl
  | [], b, [], _, h2 => by cases b <;> simp [charListLt] at h2
  | _ :: _, b, [], _, h2 => by cases b <;> simp [charListLt] at h2
  | a :: as, [], c, h1, _ => by simp [charListLt] at h1
  | a :: as, b :: bs, c :: cs, h1, h2 => by
    unfold charListLt at h1 h2 ⊢
    by_cases hab : a.toNat < b.toNat
    · by_cases hbc : b.toNat < c.toNat
      · rw [if_pos (show a.toNat < c.toNat by omega)]
      · by_cases hcb : c.toNat < b.toNat
        · rw [if_neg hbc, if_pos hcb] at h2; cases h2
        · rw [if_pos (show a.toNat < c.toNat by omega)]
    · by_cases hba : b.toNat < a.toNat
      · rw [if_pos hba] at h1
        rw [if_neg hab] at h1
        cases h1
      · rw [if_neg hab, if_neg hba] at h1
        by_cases hbc : b.toNat < c.toNat
        · rw [if_pos (show a.toNat < c.toNat by omega)]
        · by_cases hcb : c.toNat < b.toNat
          · rw [if_neg hbc, if_pos hcb] at h2; cases h2
          · rw [if_neg hbc, if_neg hcb] at h2
            rw [if_neg (show ¬ a.toNat < c.toNat by omega),
              if_neg (show ¬ c.toNat < a.toNat by omega)]
            exact charListLt_trans as bs cs h1 h2

theorem pyStrLt_asymm (a b : String) (h : pyStrLt a b = true) : pyStrLt b a = false :=
  charListLt_asymm a.data b.data h

theorem pyStrLt_conn (a b : String) (h1 : pyStrLt a b = false) (h2 : pyStrLt b a = false) :
    a = b := by
  have hd := charListLt_conn a.data b.data h1 h2
  cases a; cases b
  exact congrArg String.mk hd

theorem pyStrLe_trans (a b c : String) (h1 : pyStrLt b a = false) (h2 : pyStrLt c b = false) :
    pyStrLt c a = false := by
  cases hca : pyStrLt c a with
  | false => rfl
  | true =>
    exfalso
    by_cases hab : pyStrLt a b = true
    · have hcb : pyStrLt c b = true := charListLt_trans c.data a.data b.data hca hab
      rw [hcb] at h2; cases h2
    · have hab' : pyStrLt a b = false := by
        revert hab; cases pyStrLt a b <;> simp
      cases pyStrLt_conn a b hab' h1
      rw [hca] at h2; cases h2

theorem insertByKey_perm : ∀ (l : List (String × PyVal)) (p),
    List.Perm (insertByKey p l) (p :: l)
  | [], _ => List.Perm.refl _
  | q :: qs, p => by
    unfold insertByKey
    by_cases h : pyStrLt q.1 p.1 = true
    · rw [if_pos h]
      exact ((insertByKey_perm qs p).cons q).trans (List.Perm.swap p q qs)
    · rw [if_neg h]

theorem sortKeys_perm : ∀ l : List (String × PyVal), List.Perm (sortKeys l) l
  | [] => List.Perm.refl _
  | p :: ps => (insertByKey_perm (sortKeys ps) p).trans ((sortKeys_perm ps).cons p)

theorem insertByKey_sorted : ∀ (l : List (String × PyVal)) (p),
    l.Pairwise keyLe → (insertByKey p l).Pairwise keyLe
  | [], p, _ => List.pairwise_singleton _ _
  | q :: qs, p, hs => by
    unfold insertByKey
    obtain ⟨hq, hqs⟩ := List.pairwise_cons.mp hs
    by_cases h : pyStrLt q.1 p.1 = true
    · rw [if_pos h]
      refine List.pairwise_cons.mpr ⟨?_, insertByKey_sorted qs p hqs⟩
      intro b hb
      rcases List.mem_cons.mp ((insertByKey_perm qs p).mem_iff.mp hb) with rfl | hb
      · exact pyStrLt_asymm q.1 b.1 h
      · exact hq b hb
    · rw [if_neg h]
      have hp : keyLe p q := by
        revert h; unfold keyLe; cases pyStrLt q.1 p.1 <;> simp
      refine List.pairwise_cons.mpr ⟨?_, hs⟩
      intro b hb
      rcases List.mem_cons.mp hb with rfl | hb
      · exact hp
      · exact pyStrLe_trans p.1 q.1 b.1 hp (hq b hb)

theorem sortKeys_sorted : ∀ l : List (String × PyVal), (sortKeys l).Pairwise keyLe
  | [] => List.Pairwise.nil
  | p :: ps => insertByKey_sorted _ p (sortKeys_sorted ps)

theorem pairwise_keyLt_of_nodup (l : List (String × PyVal)) (hs : l.Pairwise keyLe)
    (hn : (l.map Prod.fst).Nodup) : l.Pairwise keyLt := by
  have hn' : l.Pairwise (fun a b => a.1 ≠ b.1) := List.pairwise_map.mp hn
  refine (hs.and hn').imp ?_
  intro a b hab
  obtain ⟨hle, hne⟩ := hab
  cases hlt : pyStrLt a.1 b.1 with
  | true => exact hlt
  | false => exact absurd (pyStrLt_conn a.1 b.1 hlt hle) hne

theorem sortKeys_eq_of_perm (p p' : List (String × PyVal)) (hperm : List.Perm p p')
    (hn : (p.map Prod.fst).Nodup) : sortKeys p = sortKeys p' := by
  have hperm2 : List.Perm (sortKeys p) (sortKeys p') :=
    ((sortKeys_perm p).trans hperm).trans (sortKeys_perm p').symm
  have hn1 : ((sortKeys p).map Prod.fst).Nodup :=
    ((sortKeys_perm p).map Prod.fst).symm.nodup hn
  have hn2 : ((sortKeys p').map Prod.fst).Nodup :=
    ((sortKeys_perm p').map Prod.fst).symm.nodup ((hperm.map Prod.fst).nodup hn)
  haveI : IsAntisymm (String × PyVal) keyLt := by
    constructor
    intro a b h1 h2
    unfold keyLt at h1 h2
    rw [pyStrLt_asymm a.1 b.1 h1] at h2
    cases h2
  exact List.eq_of_perm_of_sorted hperm2
    (pairwise_keyLt_of_nodup _ (sortKeys_sorted p) hn1)
    (pairwise_keyLt_of_nodup _ (sortKeys_sorted p') hn2)

/-! ### The canonical encoder under key permutations and congruence -/

theorem jsonReady_list_eq (xs : List PyVal) :
    jsonReady (.list xs) = Option.map PyVal.list (jsonReadyList xs) := rfl

theorem jsonReady_dict_eq (kvs : List (String × PyVal)) :
    jsonReady (.dict kvs) =
      Option.map (fun l => PyVal.dict (sortKeys l)) (jsonReadyKVs kvs) := rfl

theorem jsonReadyList_cons (x : PyVal) (xs : List PyVal) :
    jsonReadyList (x :: xs) =
      (jsonReady x).bind (fun a => (jsonReadyList xs).bind fun b => some (a :: b)) := rfl

theorem jsonReadyKVs_cons (k : String) (v : PyVal) (xs : List (String × PyVal)) :
    jsonReadyKVs ((k, v) :: xs) =
      (jsonReady v).bind (fun a => (jsonReadyKVs xs).bind fun b => some ((k, a) :: b)) := rfl

theorem jsonReadyKVs_keys : ∀ (p : List (String × PyVal)) (l : List (String × PyVal)),
    jsonReadyKVs p = some l → l.map Prod.fst = p.map Prod.fst
  | [], l, h => by
    cases Option.some.inj h
    rfl
  | (k, v) :: xs, l, h => by
    rw [jsonReadyKVs_cons] at h
    cases hv : jsonReady v with
    | none => rw [hv, Option.none_bind] at h; cases h
    | some a =>
      rw [hv, Option.some_bind] at h
      cases hxs : jsonReadyKVs xs with
      | none => rw [hxs, Option.none_bind] at h; cases h
      | some b =>
        rw [hxs, Option.some_bind] at h
        cases Option.some.inj h
        simp only [List.map_cons]
        rw [jsonReadyKVs_keys xs b hxs]

theorem jsonReadyKVs_perm {p p' : List (String × PyVal)} (hperm : List.Perm p p') :
    (jsonReadyKVs p = none ∧ jsonReadyKVs p' = none) ∨
    ∃ l l', jsonReadyKVs p = some l ∧ jsonReadyKVs p' = some l' ∧ List.Perm l l' := by
  induction hperm with
  | nil => exact Or.inr ⟨[], [], rfl, rfl, List.Perm.refl _⟩
  | cons x hrest ih =>
    obtain ⟨k, v⟩ := x
    cases hv : jsonReady v with
    | none =>
      left
      constructor <;> rw [jsonReadyKVs_cons, hv, Option.none_bind]
    | some a =>
      rcases ih with ⟨h1, h2⟩ | ⟨l, l', h1, h2, hp⟩
      · left
        constructor
        · rw [jsonReadyKVs_cons, hv, Option.some_bind, h1, Option.none_bind]
        · rw [jsonReadyKVs_cons, hv, Option.some_bind, h2, Option.none_bind]
      · right
        refine ⟨(k, a) :: l, (k, a) :: l', ?_, ?_, hp.cons _⟩
        · rw [jsonReadyKVs_cons, hv, Option.some_bind, h1, Option.some_bind]
        · rw [jsonReadyKVs_cons, hv, Option.some_bind, h2, Option.some_bind]
  | swap x y l =>
    obtain ⟨kx, vx⟩ := x
    obtain ⟨ky, vy⟩ := y
    cases hx : jsonReady vx with
    | none =>
      left
      constructor <;>
        simp only [jsonReadyKVs_cons, hx, Option.none_bind, Option.some_bind] <;>
        cases jsonReady vy <;>
        simp only [Option.none_bind, Option.some_bind]
    | some ax =>
      cases hy : jsonReady vy with
      | none =>
        left
        constructor <;>
          simp only [jsonReadyKVs_cons, hx, hy, Option.none_bind, Option.some_bind]
      | some ay =>
        cases hl : jsonReadyKVs l with
        | none =>
          left
          constructor <;>
            simp only [jsonReadyKVs_cons, hx, hy, hl, Option.none_bind, Option.some_bind]
        | some lb =>
          right
          refine ⟨(ky, ay) :: (kx, ax) :: lb, (kx, ax) :: (ky, ay) :: lb, ?_, ?_,
            List.Perm.swap (kx, ax) (ky, ay) lb⟩
          · simp only [jsonReadyKVs_cons, hx, hy, hl, Option.some_bind]
          · simp only [jsonReadyKVs_cons, hx, hy, hl, Option.some_bind]
  | trans h1 h2 ih1 ih2 =>
    rcases ih1 with ⟨ha, hb⟩ | ⟨l1, l2, ha, hb, hp⟩ <;>
      rcases ih2 with ⟨hc, hd⟩ | ⟨l3, l4, hc, hd, hq⟩
    · exact Or.inl ⟨ha, hd⟩
    · rw [hb] at hc; cases hc
    · rw [hc] at hb; cases hb
    · rw [hb] at hc
      cases Option.some.inj hc
      exact Or.inr ⟨l1, l4, ha, hd, hp.trans hq⟩

/-- Permuting the items of a mapping with distinct keys does not change
the output of the key-sorting pass. -/
theorem jsonReady_dict_perm (p p' : List (String × PyVal)) (hperm : List.Perm p p')
    (hn : (p.map Prod.fst).Nodup) : jsonReady (.dict p) = jsonReady (.dict p') := by
  rw [jsonReady_dict_eq, jsonReady_dict_eq]
  rcases jsonReadyKVs_perm hperm with ⟨h1, h2⟩ | ⟨l, l', h1, h2, hp⟩
  · rw [h1, h2]
  · rw [h1, h2]
    simp only [Option.map_some']
    have hkeys : (l.map Prod.fst).Nodup := by
      rw [jsonReadyKVs_keys p l h1]
      exact hn
    rw [sortKeys_eq_of_perm l l' hp hkeys]

theorem jsonReadyList_congr : ∀ {xs xs' : List PyVal},
    List.Forall₂ (fun v v' => jsonReady v = jsonReady v') xs xs' →
    jsonReadyList xs = jsonReadyList xs' := by
  intro xs xs' h
  induction h with
  | nil => rfl
  | cons hv hrest ih => rw [jsonReadyList_cons, jsonReadyList_cons, hv, ih]

theorem jsonReadyKVs_congr : ∀ {kvs kvs' : List (String × PyVal)},
    List.Forall₂ (fun kv kv' => kv.1 = kv'.1 ∧ jsonReady kv.2 = jsonReady kv'.2) kvs kvs' →
    jsonReadyKVs kvs = jsonReadyKVs kvs' := by
  intro kvs kvs' h
  induction h with
  | nil => rfl
  | @cons a b as bs hv hrest ih =>
    obtain ⟨k, v⟩ := a
    obtain ⟨k', v'⟩ := b
    obtain ⟨hk, hready⟩ := hv
    cases hk
    rw [jsonReadyKVs_cons, jsonReadyKVs_cons, hready, ih]

theorem ValPerm_ready {v v' : PyVal} (h : ValPerm v v') : jsonReady v = jsonReady v' := by
  rcases h with rfl | ⟨p, p', hn, hperm, rfl, rfl⟩
  · rfl
  · exact jsonReady_dict_perm p p' hperm hn

theorem EventReorder_ready {d d' : PyVal} (h : EventReorder d d') :
    jsonReady d = jsonReady d' := by
  rcases h with rfl | ⟨kvs, kvs', rfl, rfl, hf⟩
  · rfl
  · rw [jsonReady_dict_eq, jsonReady_dict_eq,
      jsonReadyKVs_congr (hf.imp (fun _ _ hkv => ⟨hkv.1, ValPerm_ready hkv.2⟩))]

theorem block_obj_set_events (b : Block) (es : List PyVal) :
    ({ b with events := es } : Block).block_obj =
      .dict [("index", .int b.index),
             ("timestamp_utc", .str b.timestamp_utc),
             ("previous_hash", .str b.previous_hash),
             ("events", .list es),
             ("nonce", .int b.nonce)] := rfl

/-- Reordering payload mappings inside the events of a block does not
change its fingerprint. -/
theorem compute_hash_events_congr (b : Block) (es es' : List PyVal)
    (h : List.Forall₂ EventReorder es es') :
    Block.compute_hash { b with events := es } = Block.compute_hash { b with events := es' } := by
  have hready : jsonReady (.list es) = jsonReady (.list es') := by
    rw [jsonReady_list_eq, jsonReady_list_eq,
      jsonReadyList_congr (h.imp (fun _ _ hr => EventReorder_ready hr))]
  have hobj : jsonReady ({ b with events := es } : Block).block_obj =
      jsonReady ({ b with events := es' } : Block).block_obj := by
    rw [block_obj_set_events, block_obj_set_events, jsonReady_dict_eq, jsonReady_dict_eq]
    have hf : List.Forall₂
        (fun (kv kv' : String × PyVal) => kv.1 = kv'.1 ∧ jsonReady kv.2 = jsonReady kv'.2)
        [("index", PyVal.int b.index),
         ("timestamp_utc", PyVal.str b.timestamp_utc),
         ("previous_hash", PyVal.str b.previous_hash),
         ("events", PyVal.list es),
         ("nonce", PyVal.int b.nonce)]
        [("index", PyVal.int b.index),
         ("timestamp_utc", PyVal.str b.timestamp_utc),
         ("previous_hash", PyVal.str b.previous_hash),
         ("events", PyVal.list es'),
         ("nonce", PyVal.int b.nonce)] :=
      List.Forall₂.cons ⟨rfl, rfl⟩ (List.Forall₂.cons ⟨rfl, rfl⟩ (List.Forall₂.cons ⟨rfl, rfl⟩
        (List.Forall₂.cons ⟨rfl, hready⟩ (List.Forall₂.cons ⟨rfl, rfl⟩ List.Forall₂.nil))))
    rw [jsonReadyKVs_congr hf]
  unfold Block.compute_hash canonical_json
  rw [hobj]

/-! ### Equation helpers for the two stateful operations -/

theorem is_valid_chain_eq (bc : Blockchain) (b0 : Block) (rest : List Block)
    (hc : bc.chain = b0 :: rest) : bc.is_valid = checkFrom b0 rest := by
  obtain ⟨c⟩ := bc
  cases hc
  rfl

/-! ### The fingerprint is a 64-character hex string -/

theorem shaRounds_length : ∀ (kw : List (Nat × Nat)) (regs : List Nat),
    (shaRounds kw regs).length = regs.length := by
  intro kw
  induction kw with
  | nil => intro regs; rfl
  | cons kwi rest ih =>
    intro regs
    obtain ⟨k, wi⟩ := kwi
    match regs with
    | [] => rfl
    | [a] => rfl
    | [a, b] => rfl
    | [a, b, c] => rfl
    | [a, b, c, d] => rfl
    | [a, b, c, d, e] => rfl
    | [a, b, c, d, e, f] => rfl
    | [a, b, c, d, e, f, g] => rfl
    | [a, b, c, d, e, f, g, h] => exact (ih _).trans rfl
    | a :: b :: c :: d :: e :: f :: g :: h :: x :: tl => rfl

theorem shaCompress_length (h chunk : List Nat) : (shaCompress h chunk).length = h.length := by
  unfold shaCompress
  rw [List.length_map, List.length_zip, shaRounds_length]
  exact Nat.min_self _

theorem processChunks_length : ∀ (fuel : Nat) (h bytes : List Nat),
    (processChunks fuel h bytes).length = h.length
  | 0, _, _ => rfl
  | _ + 1, _, [] => rfl
  | fuel + 1, h, b :: bs => by
    show (processChunks fuel (shaCompress h ((b :: bs).take 64)) ((b :: bs).drop 64)).length =
      h.length
    rw [processChunks_length fuel _ _, shaCompress_length]

theorem sha256Words_length (msg : List Nat) : (sha256Words msg).length = 8 := by
  unfold sha256Words
  rw [processChunks_length]
  rfl

theorem foldl_append_length : ∀ (xs : List String) (s : String),
    (xs.foldl (· ++ ·) s).length = s.length + (xs.map String.length).sum
  | [], s => by simp
  | x :: xs, s => by
    show ((xs.foldl (· ++ ·) (s ++ x))).length = _
    rw [foldl_append_length xs (s ++ x), String.length_append]
    simp only [List.map_cons, List.sum_cons]
    omega

theorem wordHex_length (n : Nat) : (wordHex n).length = 8 := rfl

/-- Every fingerprint produced by sha256_hex is 64 characters long, the
length of the all-zero genesis sentinel. -/
theorem sha256_hex_length (s : String) : (sha256_hex s).length = 64 := by
  unfold sha256_hex
  rw [show String.join ((sha256Words (utf8Bytes s)).map wordHex) =
    ((sha256Words (utf8Bytes s)).map wordHex).foldl (· ++ ·) "" from rfl]
  rw [foldl_append_length]
  have hsum : ∀ l : List Nat, ((l.map wordHex).map String.length).sum = 8 * l.length := by
    intro l
    induction l with
    | nil => rfl
    | cons a as ih =>
      simp only [List.map_cons, List.sum_cons, wordHex_length, ih, List.length_cons]
      omega
  rw [hsum, sha256Words_length]
  rfl

/-- C2: is_valid walks blocks from index 1 to the tip; for each block i it
checks that the previous fingerprint of block i equals the stored
fingerprint of block i-1 and that an independent recomputation of the
fingerprint of block i equals its stored fingerprint; it returns false
exactly when some block fails a check and true exactly when every block
from 1 to the tip passes both.  The embedding is purely functional, so
the function has no side effects and repeated calls on the same ledger
are the same term, hence equal.  The hypothesis states that recomputation
succeeds on the blocks past genesis (in the source a non-representable
tampered payload would raise instead of returning). -/
theorem C2_is_valid_characterization (bc : Blockchain)
    (hrep : ∀ b ∈ bc.chain.tail, (Block.compute_hash b).isSome = true) :
    (bc.is_valid = some true ↔ pairChecks bc.chain) ∧
    (bc.is_valid = some false ↔ ¬ pairChecks bc.chain) := by
  cases hc : bc.chain with
  | nil =>
    have hv : bc.is_valid = some true := by
      obtain ⟨c⟩ := bc
      cases hc
      rfl
    have hpc : pairChecks [] := by
      intro i cur prevb h1 h2 h3
      rw [List.get?_nil] at h2
      cases h2
    rw [hv]
    constructor
    · constructor
      · intro _; exact hpc
      · intro _; rfl
    · constructor
      · intro hcon; cases hcon
      · intro hcon; exact absurd hpc hcon
  | cons b0 rest =>
    rw [hc] at hrep
    have hrep' : ∀ b ∈ rest, (Block.compute_hash b).isSome = true := hrep
    have htrue := (checkFrom_true_iff rest b0 hrep').trans (okFrom_iff_pairChecks rest b0)
    have hsome := checkFrom_isSome rest b0 hrep'
    rw [is_valid_chain_eq bc b0 rest hc]
    refine ⟨htrue, ?_, ?_⟩
    · intro hfalse hpc
      rw [htrue.mpr hpc] at hfalse
      cases hfalse
    · intro hnpc
      cases hv : checkFrom b0 rest with
      | none => rw [hv] at hsome; cases hsome
      | some bval =>
        cases bval with
        | true => exact absurd (htrue.mp hv) hnpc
        | false => rfl

/-- C3: a successful append of a non-empty batch returns a block whose
previous fingerprint is the stored fingerprint of the prior tip and whose
index is the prior block count; the chain grows by exactly one and every
previously stored block is unchanged.  (In the source the only raise paths
are an unserializable payload or an impossible empty chain; the success
hypothesis is the normal-return postcondition reading of the spec.) -/
theorem C3_append_guarantees (bc bc' : Blockchain) (ev : List Event) (now : String)
    (blk : Block) (hne : ev ≠ []) (h : bc.add_block ev now = some (bc', blk)) :
    (∃ prev, bc.chain.getLast? = some prev ∧ blk.previous_hash = prev.hash) ∧
    blk.index = bc.chain.length ∧
    bc'.chain.length = bc.chain.length + 1 ∧
    ∀ i : Nat, i < bc.chain.length → bc'.chain.get? i = bc.chain.get? i := by
  obtain ⟨prev, hl, hchain, hidx, hprev, -, -, -, -⟩ := add_block_spec h
  refine ⟨⟨prev, hl, hprev⟩, hidx, ?_, ?_⟩
  · rw [hchain]
    simp
  · intro i hi
    rw [hchain]
    exact List.get?_append hi

/-- C4: every ledger reachable by genesis initialization followed by any
number of untampered appends validates: is_valid returns true (and in
particular a freshly constructed ledger validates). -/
theorem C4_reachable_valid (bc : Blockchain) (h : Reachable bc) : bc.is_valid = some true := by
  have hg := reachable_goodChain h
  cases hc : bc.chain with
  | nil => rw [hc] at hg; cases hg
  | cons b0 rest =>
    rw [hc] at hg
    rw [is_valid_chain_eq bc b0 rest hc]
    exact checkFrom_of_okFrom rest b0 (linkedFrom_okFrom rest b0 hg.2.2)

/-- C10: the result of is_valid does not depend on the genesis block
content beyond its stored fingerprint: two chains that agree from index 1
on and agree on the stored fingerprint of block 0 validate identically,
whatever the other fields of block 0 are — genesis content is never
recomputed, so tampering confined to it goes undetected. -/
theorem C10_genesis_opacity (b0 b0' : Block) (rest : List Block)
    (hh : b0.hash = b0'.hash) :
    Blockchain.is_valid ⟨b0 :: rest⟩ = Blockchain.is_valid ⟨b0' :: rest⟩ :=
  checkFrom_head_hash b0 b0' rest hh

/-- C10 witness: a ledger and a copy whose genesis block has different
index, timestamp and events but the same stored fingerprint validate
identically. -/
theorem C10_witness :
    Blockchain.is_valid ⟨[Blockchain.create_genesis_block "A" "B"]⟩ =
      Blockchain.is_valid ⟨[{ Blockchain.create_genesis_block "A" "B" with
        index := 7, timestamp_utc := "X", events := [] }]⟩ :=
  C10_genesis_opacity _ _ [] rfl

/-- C6 amended: a fingerprint is computed over the deterministic encoding
of exactly the index, timestamp, previous fingerprint, events and nonce
of the block — the hash field itself is never an input — and the
computation is a pure function of those five fields (the embedding is a
function, so there are no side effects, randomness or machine state). -/
theorem C6_fingerprint_inputs (b b' : Block)
    (h1 : b.index = b'.index) (h2 : b.timestamp_utc = b'.timestamp_utc)
    (h3 : b.previous_hash = b'.previous_hash) (h4 : b.events = b'.events)
    (h5 : b.nonce = b'.nonce) :
    b.compute_hash = b'.compute_hash := by
  obtain ⟨i, t, p, e, n, hh⟩ := b
  obtain ⟨i', t', p', e', n', hh'⟩ := b'
  simp only at h1 h2 h3 h4 h5
  subst h1; subst h2; subst h3; subst h4; subst h5
  rfl

/-- C6 witness: two blocks that differ only in the hash field have equal
recomputed fingerprints. -/
theorem C6_witness :
    Block.compute_hash ⟨0, "T", "P", [], 0, "h1"⟩ =
      Block.compute_hash ⟨0, "T", "P", [], 0, "h2"⟩ :=
  C6_fingerprint_inputs _ _ rfl rfl rfl rfl rfl

/-- C6 counterexample: the claim as frozen says the fingerprint is a
function of exactly the index, timestamp, previous fingerprint and
events; but the source also hashes the nonce field, so two blocks that
agree on all four named fields and differ in nonce have different
fingerprints. -/
theorem C6_cex_nonce_hashed :
    (⟨0, "T", "P", [], 0, ""⟩ : Block).index = (⟨0, "T", "P", [], 1, ""⟩ : Block).index ∧
    (⟨0, "T", "P", [], 0, ""⟩ : Block).timestamp_utc =
      (⟨0, "T", "P", [], 1, ""⟩ : Block).timestamp_utc ∧
    (⟨0, "T", "P", [], 0, ""⟩ : Block).previous_hash =
      (⟨0, "T", "P", [], 1, ""⟩ : Block).previous_hash ∧
    (⟨0, "T", "P", [], 0, ""⟩ : Block).events = (⟨0, "T", "P", [], 1, ""⟩ : Block).events ∧
    Block.compute_hash ⟨0, "T", "P", [], 0, ""⟩ ≠ Block.compute_hash ⟨0, "T", "P", [], 1, ""⟩ :=
  ⟨rfl, rfl, rfl, rfl, by decide⟩

/-! ### Genesis structure and index invariants (C9) -/

theorem create_genesis_block_fields (nB nE : String) :
    (Blockchain.create_genesis_block nB nE).index = 0 ∧
    (Blockchain.create_genesis_block nB nE).timestamp_utc = nB ∧
    (Blockchain.create_genesis_block nB nE).previous_hash = String.mk (List.replicate 64 '0') ∧
    (Blockchain.create_genesis_block nB nE).events = [genesisEventDict nE] ∧
    (Blockchain.create_genesis_block nB nE).nonce = 0 := by
  unfold Blockchain.create_genesis_block
  cases (genesis_base nB nE).compute_hash <;> exact ⟨rfl, rfl, rfl, rfl, rfl⟩

theorem linkedFrom_get_index : ∀ (rest : List Block) (prev : Block), linkedFrom prev rest →
    ∀ (j : Nat) (b : Block), rest.get? j = some b → b.index = prev.index + j + 1
  | [], _, _, j, b, h => by rw [List.get?_nil] at h; cases h
  | c :: cs, prev, hl, 0, b, h => by
    rw [List.get?_cons_zero] at h
    cases Option.some.inj h
    exact hl.1
  | c :: cs, prev, hl, j + 1, b, h => by
    rw [List.get?_cons_succ] at h
    rw [linkedFrom_get_index cs c hl.2.2.2 j b h, hl.1]
    omega

theorem goodChain_get_index (c : List Block) (hg : goodChain c) :
    ∀ (i : Nat) (b : Block), c.get? i = some b → b.index = i := by
  cases c with
  | nil => cases hg
  | cons b0 rest =>
    intro i b h
    cases i with
    | zero =>
      rw [List.get?_cons_zero] at h
      cases Option.some.inj h
      exact hg.1
    | succ j =>
      rw [List.get?_cons_succ] at h
      rw [linkedFrom_get_index rest b0 hg.2.2 j b h, hg.1]
      omega

/-- C9: ledger construction creates exactly one block, at index 0, whose
previous fingerprint is the all-zero sentinel (64 characters, the length
of every real fingerprint) and whose events are the single synthetic
initialization event, with its fingerprint computed and assigned; and on
every reachable ledger the chain is non-empty with the block at position
i carrying index i. -/
theorem C9_genesis_initialization :
    (∀ nowB nowE : String,
      (Blockchain.init nowB nowE).chain = [Blockchain.create_genesis_block nowB nowE] ∧
      (Blockchain.create_genesis_block nowB nowE).index = 0 ∧
      (Blockchain.create_genesis_block nowB nowE).previous_hash =
        String.mk (List.replicate 64 '0') ∧
      (Blockchain.create_genesis_block nowB nowE).previous_hash.length = 64 ∧
      (∀ s : String, (sha256_hex s).length = 64) ∧
      (Blockchain.create_genesis_block nowB nowE).events = [genesisEventDict nowE] ∧
      (Blockchain.create_genesis_block nowB nowE).compute_hash =
        some (Blockchain.create_genesis_block nowB nowE).hash) ∧
    (∀ bc : Blockchain, Reachable bc →
      bc.chain ≠ [] ∧ ∀ (i : Nat) (b : Block), bc.chain.get? i = some b → b.index = i) := by
  constructor
  · intro nowB nowE
    obtain ⟨h1, -, h3, h4, -⟩ := create_genesis_block_fields nowB nowE
    refine ⟨rfl, h1, h3, ?_, sha256_hex_length, h4, create_genesis_block_hash nowB nowE⟩
    rw [h3]
    rfl
  · intro bc hR
    exact ⟨reachable_ne_nil hR, goodChain_get_index bc.chain (reachable_goodChain hR)⟩

/-- C9 witness: the facts of C9 at a concrete fresh ledger. -/
theorem C9_witness :
    (Blockchain.init "A" "B").chain = [Blockchain.create_genesis_block "A" "B"] ∧
    (Blockchain.create_genesis_block "A" "B").previous_hash.length = 64 ∧
    (sha256_hex "x").length = 64 ∧
    (Blockchain.init "A" "B").chain ≠ [] ∧
    (Blockchain.create_genesis_block "A" "B").index = 0 := by
  obtain ⟨h1, -, -, h4, hsha, -, -⟩ := C9_genesis_initialization.1 "A" "B"
  obtain ⟨h5, h6⟩ :=
    C9_genesis_initialization.2 (Blockchain.init "A" "B") (Reachable.init "A" "B")
  exact ⟨h1, h4, hsha "x", h5, h6 0 _ (by rw [h1]; rfl)⟩

/-- C5 counterexample: the claim says an append of an empty event batch
fails with an InvalidAppendError before any state mutation; the source
has no such check or error class, and the call succeeds, appending a
block with an empty events list and growing the chain to length 2. -/
theorem C5_cex_empty_append_succeeds :
    ((Blockchain.init "A" "B").add_block [] "C").map
      (fun p => (p.1.chain.length, p.2.events.length)) = some (2, 0) := by decide

/-- C5 amended: an append of an empty event batch is not rejected: on any
ledger with a non-empty chain it succeeds, returning a block whose events
list is empty and growing the chain by exactly one.  No InvalidAppendError
exists in the source. -/
theorem C5_empty_batch_not_rejected (bc : Blockchain) (now : String) (b0 : Block)
    (rest : List Block) (hc : bc.chain = b0 :: rest) :
    ∃ bc' blk, bc.add_block [] now = some (bc', blk) ∧ blk.events = [] ∧
      bc'.chain.length = bc.chain.length + 1 := by
  unfold Blockchain.add_block
  rw [hc, getLast?_eq_lastBlock, Option.some_bind]
  have hsome : (Block.compute_hash { index := (b0 :: rest).length, timestamp_utc := now, previous_hash := (lastBlock b0 rest).hash, events := List.map (fun e => Event.to_dict e now) ([] : List Event), nonce := 0, hash := "" }).isSome = true := by
    rw [compute_hash_isSome]
    rfl
  obtain ⟨e, he⟩ := Option.isSome_iff_exists.mp hsome
  rw [he, Option.some_bind]
  refine ⟨_, _, rfl, rfl, ?_⟩
  simp

/-- C5 witness: the amended statement exercised on a concrete fresh
ledger: the empty append returns normally. -/
theorem C5_witness : (((Blockchain.init "A" "B").add_block [] "C").isSome) = true := by
  obtain ⟨bc', blk, h, -, -⟩ :=
    C5_empty_batch_not_rejected (Blockchain.init "A" "B") "C"
      (Blockchain.create_genesis_block "A" "B") [] rfl
  rw [h]
  rfl

/-- C7: the deterministic encoding is order-independent over mapping
keys: mappings holding identical key-value pairs inserted in different
orders (keys distinct, as in a Python dict) have byte-identical
encodings, and two blocks identical except for such payload reorderings
inside their events have identical fingerprints. -/
theorem C7_key_order_independence :
    (∀ (p p' : List (String × PyVal)), (p.map Prod.fst).Nodup → List.Perm p p' →
      canonical_json (PyVal.dict p) = canonical_json (PyVal.dict p')) ∧
    (∀ (b : Block) (es es' : List PyVal), List.Forall₂ EventReorder es es' →
      Block.compute_hash { b with events := es } =
        Block.compute_hash { b with events := es' }) := by
  constructor
  · intro p p' hn hperm
    unfold canonical_json
    rw [jsonReady_dict_perm p p' hperm hn]
  · exact compute_hash_events_congr

/-- C7 witness: the two parts of C7 at concrete payloads differing only
in insertion order. -/
theorem C7_witness :
    canonical_json (PyVal.dict wPayload) = canonical_json (PyVal.dict wPayloadSwapped) ∧
    Block.compute_hash { index := 1, timestamp_utc := "T", previous_hash := "P", events := [wDictEv wPayload], nonce := 0, hash := "" } =
      Block.compute_hash { index := 1, timestamp_utc := "T", previous_hash := "P", events := [wDictEv wPayloadSwapped], nonce := 0, hash := "" } := by
  have hperm : List.Perm wPayload wPayloadSwapped :=
    List.Perm.swap ("y", PyVal.int 2) ("x", PyVal.int 1) []
  have hnodup : (wPayload.map Prod.fst).Nodup := by decide
  have hreorder : EventReorder (wDictEv wPayload) (wDictEv wPayloadSwapped) :=
    Or.inr ⟨[("event_type", PyVal.str "E"), ("payload", PyVal.dict wPayload)],
      [("event_type", PyVal.str "E"), ("payload", PyVal.dict wPayloadSwapped)], rfl, rfl,
      List.Forall₂.cons ⟨rfl, Or.inl rfl⟩
        (List.Forall₂.cons ⟨rfl, Or.inr ⟨wPayload, wPayloadSwapped, hnodup, hperm, rfl, rfl⟩⟩
          List.Forall₂.nil)⟩
  refine ⟨C7_key_order_independence.1 wPayload wPayloadSwapped hnodup hperm, ?_⟩
  exact C7_key_order_independence.2
    { index := 1, timestamp_utc := "T", previous_hash := "P", events := [], nonce := 0, hash := "" }
    [wDictEv wPayload] [wDictEv wPayloadSwapped]
    (List.Forall₂.cons hreorder List.Forall₂.nil)

/-! ### The encoder rejects unserializable payloads and the append aborts (C8) -/

theorem compute_hash_eq_none (b : Block) :
    b.compute_hash = none ↔ hasObj b.block_obj = true := by
  unfold Block.compute_hash canonical_json
  rw [Option.map_eq_none', Option.map_eq_none']
  exact jsonReady_none_iff _

theorem hasObjList_of_mem : ∀ (xs : List PyVal) (x : PyVal), x ∈ xs → hasObj x = true →
    hasObjList xs = true
  | [], _, h, _ => by cases h
  | y :: ys, x, h, hx => by
    rcases List.mem_cons.mp h with rfl | h2
    · show (hasObj x || hasObjList ys) = true
      rw [hx]
      rfl
    · show (hasObj y || hasObjList ys) = true
      rw [hasObjList_of_mem ys x h2 hx]
      exact Bool.or_true _

theorem hasObj_to_dict (e : Event) (now : String) (h : hasObj (PyVal.dict e.payload) = true) :
    hasObj (e.to_dict now) = true := by
  have h2 : hasObjKVs e.payload = true := h
  simp [Event.to_dict, hasObj, hasObjKVs, h2]

/-- C8: the canonical encoder fails exactly on values containing an
object the json module cannot represent — it rejects rather than
silently coercing — and an append whose batch contains such a payload
aborts with the none result, which in the source is a raise before the
single mutation of the chain, so the ledger is unchanged (and the
embedding is functional, so no payload is mutated). -/
theorem C8_encoder_rejects :
    (∀ v : PyVal, canonical_json v = none ↔ hasObj v = true) ∧
    (∀ (bc : Blockchain) (ev : List Event) (now : String) (e : Event),
      e ∈ ev → hasObj (PyVal.dict e.payload) = true → bc.add_block ev now = none) := by
  constructor
  · intro v
    unfold canonical_json
    rw [Option.map_eq_none']
    exact jsonReady_none_iff v
  · intro bc ev now e hmem hobj
    unfold Blockchain.add_block
    cases hl : bc.chain.getLast? with
    | none => rfl
    | some prev =>
      rw [Option.some_bind]
      have hl2 : hasObjList (ev.map (fun x => x.to_dict now)) = true :=
        hasObjList_of_mem _ _ (List.mem_map_of_mem _ hmem) (hasObj_to_dict e now hobj)
      have hnone : Block.compute_hash { index := bc.chain.length, timestamp_utc := now, previous_hash := prev.hash, events := ev.map (fun x => x.to_dict now), nonce := 0, hash := "" } = none := by
        rw [compute_hash_eq_none]
        simp [Block.block_obj, hasObj, hasObjKVs, hl2]
      rw [hnone]
      rfl

/-- C8 witness: the encoder rejects a concrete unserializable value and
the append of a batch containing it aborts. -/
theorem C8_witness :
    canonical_json (PyVal.obj "set") = none ∧
    (Blockchain.init "A" "B").add_block [wBadEvent] "C" = none := by
  refine ⟨(C8_encoder_rejects.1 (PyVal.obj "set")).mpr rfl, ?_⟩
  exact C8_encoder_rejects.2 (Blockchain.init "A" "B") [wBadEvent] "C" wBadEvent
    (List.mem_cons_self _ _) (by decide)

/-- C1 amended: on every reachable ledger, for every stored block at
index 1 or above, replacing the block by one that keeps the stored
fingerprint but whose content hashes differently (as any single-field
mutation does, barring a SHA-256 collision) makes is_valid return false;
mutations confined to the content of the genesis block (index 0) are not
detected, because its fingerprint is never recomputed. -/
theorem C1_tamper_after_genesis_detected (bc : Blockchain) (hR : Reachable bc) (i : Nat)
    (hi : 1 ≤ i) (cur b' : Block) (hcur : bc.chain.get? i = some cur)
    (hhash : b'.hash = cur.hash)
    (hrep : (b'.compute_hash).isSome = true)
    (hdiff : b'.compute_hash ≠ cur.compute_hash) :
    Blockchain.is_valid ⟨bc.chain.set i b'⟩ = some false := by
  have hg := reachable_goodChain hR
  cases hc : bc.chain with
  | nil => rw [hc] at hg; cases hg
  | cons b0 rest =>
    rw [hc] at hg hcur
    obtain ⟨j, rfl⟩ : ∃ j, i = j + 1 := ⟨i - 1, by omega⟩
    rw [List.get?_cons_succ] at hcur
    have hok : okFrom b0 rest := linkedFrom_okFrom rest b0 hg.2.2
    have hcurh : cur.compute_hash = some cur.hash := okFrom_get_hash rest b0 j cur hok hcur
    rw [List.set_cons_succ]
    show checkFrom b0 (rest.set j b') = some false
    refine checkFrom_set_false rest b0 j cur b' hok hcur hrep hhash ?_
    rw [← hcurh]
    exact hdiff

/-- C1 counterexample: the claim as frozen quantifies over every stored
block, including the genesis block; but altering the recorded events of
the genesis block (keeping its stored fingerprint) leaves is_valid true,
because validation never recomputes the genesis fingerprint. -/
theorem C1_cex_genesis_tamper_undetected :
    Blockchain.is_valid ⟨[{ Blockchain.create_genesis_block "A" "B" with events := [PyVal.dict [("x", PyVal.int 1)]] }]⟩ = some true ∧
    ({ Blockchain.create_genesis_block "A" "B" with events := [PyVal.dict [("x", PyVal.int 1)]] } : Block).hash = (Blockchain.create_genesis_block "A" "B").hash ∧
    ({ Blockchain.create_genesis_block "A" "B" with events := [PyVal.dict [("x", PyVal.int 1)]] } : Block).events ≠ (Blockchain.create_genesis_block "A" "B").events := by
  refine ⟨rfl, rfl, ?_⟩
  intro hcon
  rw [(create_genesis_block_fields "A" "B").2.2.2.1] at hcon
  have h1 : PyVal.dict [("x", PyVal.int 1)] = genesisEventDict "B" := (List.cons.inj hcon).1
  unfold genesisEventDict at h1
  have h2 := congrArg List.length (PyVal.dict.inj h1)
  simp at h2

theorem option_pair_eq {α β : Type} (o : Option (α × β)) (da : α) (db : β)
    (h : o.isSome = true) : o = some ((o.map Prod.fst).getD da, (o.map Prod.snd).getD db) := by
  cases o with
  | none => cases h
  | some p => rfl

theorem wStep_isSome : wStep.isSome = true := by decide

theorem wStep_eq : wStep = some (wBC1, wBlk) :=
  option_pair_eq wStep (Blockchain.init "A" "B") wDefaultBlock wStep_isSome

theorem wReachable : Reachable wBC1 :=
  Reachable.step (Blockchain.init "A" "B") [wEvent] "C" wBC1 wBlk
    (Reachable.init "A" "B") wStep_eq

/-- C1 witness: tampering with the payload of the block at index 1 of a
concrete two-block ledger makes is_valid return false. -/
theorem C1_witness : Blockchain.is_valid ⟨wBC1.chain.set 1 wTampered⟩ = some false := by
  have h : (Blockchain.init "A" "B").add_block [wEvent] "C" = some (wBC1, wBlk) := wStep_eq
  obtain ⟨prev, hl, hchain, -, -, -, -, -, -⟩ := add_block_spec h
  have hcur : wBC1.chain.get? 1 = some wBlk := by
    rw [hchain]
    rfl
  exact C1_tamper_after_genesis_detected wBC1 wReachable 1 (by omega) wBlk wTampered hcur
    rfl (by decide) (by decide)

/-- C2 witness: the characterization of is_valid at the concrete
two-block ledger, with representability discharged by computation. -/
theorem C2_witness :
    (wBC1.is_valid = some true ↔ pairChecks wBC1.chain) ∧
    (wBC1.is_valid = some false ↔ ¬ pairChecks wBC1.chain) :=
  C2_is_valid_characterization wBC1 (by decide)

/-- C3 witness: the append postconditions at the concrete step. -/
theorem C3_witness :
    wBlk.index = (Blockchain.init "A" "B").chain.length ∧
    wBC1.chain.length = (Blockchain.init "A" "B").chain.length + 1 := by
  have h : (Blockchain.init "A" "B").add_block [wEvent] "C" = some (wBC1, wBlk) := wStep_eq
  obtain ⟨-, hidx, hlen, -⟩ :=
    C3_append_guarantees (Blockchain.init "A" "B") wBC1 [wEvent] "C" wBlk (by simp) h
  exact ⟨hidx, hlen⟩

/-- C4 witness: a freshly constructed ledger validates. -/
theorem C4_witness : (Blockchain.init "A" "B").is_valid = some true :=
  C4_reachable_valid (Blockchain.init "A" "B") (Reachable.init "A" "B")

end GovProcureChain
